import Mathlib

/-
Verification of the ccheck policy-evaluation orchestration layer.

The Go sources are shallowly embedded below.  Conventions used throughout:

* Go byte slices are `List Char` (all inputs of interest are text).
* A Go `error` value is `Option (List String)`: `none` is the nil error,
  `some msgs` is a non-nil (possibly multierr-combined) error holding the
  message strings that were appended to it.
* A Go runtime panic is a distinct outcome from a returned error; functions
  that can panic return `Except Unit _` or the `Outcome` type below.
* External collaborators (the YAML decoder, the rego engine, the file
  system and the rego module parser) are parameters, since they live
  outside this repository.
-/

namespace CCheck

/-- A decoded generic value, the Go `interface{}` produced by the YAML/JSON
decoder and consumed by the rego engine and the result extraction loop. -/
inductive GoValue where
  | nullV : GoValue
  | str : String → GoValue
  | num : Int → GoValue
  | boolV : Bool → GoValue
  | list : List GoValue → GoValue
  | mapV : List (String × GoValue) → GoValue

/-- A top-level rego rule: only its head name matters to this layer
(`r.Head.Name.String()` in `processFile`). -/
structure Rule where
  name : String
deriving DecidableEq

/-- A parsed rego module: the list of its top-level rules in source order
(`m.Rules` in `processFile`). -/
structure Module where
  rules : List Rule
deriving DecidableEq

/-- Outcome of running a piece of Go code: a runtime panic, a returned
non-nil error, or a normal result. -/
inductive Outcome (α : Type) where
  | panicked : Outcome α
  | err : String → Outcome α
  | ok : α → Outcome α

/-! ## Document Loader: `loadConfigs` (part_000 lines 84-107)

`loadConfigs` reads each config file and runs
`bytes.Split(data, []byte("\n---\n"))`.  `splitCfg` below is that split:
it scans left to right, emits the accumulated segment at each
non-overlapping occurrence of the 5-byte separator, and never returns an
empty list of parts. -/

/-- The literal k8s multi-document separator `"\n---\n"` used by
`bytes.Split` in `loadConfigs`. -/
def sepB : List Char := ['\n', '-', '-', '-', '\n']

/-- `bytes.Split(s, "\n---\n")`: split `s` around each leftmost,
non-overlapping occurrence of `sepB`.  The first match arm consumes one
occurrence of the separator (the same five characters as `sepB`). -/
def splitCfg : List Char → List (List Char)
  | [] => [[]]
  | '\n' :: '-' :: '-' :: '-' :: '\n' :: rest => [] :: splitCfg rest
  | c :: rest =>
    match splitCfg rest with
    | [] => [[c]]
    | p :: ps => (c :: p) :: ps

/-- Does `hay` contain `needle` as a contiguous subsequence?  (The
specification of `bytes.Contains`, used to state when `bytes.Split` finds
no separator.) -/
def containsSeq (needle : List Char) : List Char → Bool
  | [] => needle.isEmpty
  | c :: r => needle.isPrefixOf (c :: r) || containsSeq needle r

/-- `loadConfigs` (part_000 lines 84-107): read every requested file and
split it into parts; a read failure aborts with an
`unable to open file` error.  (`filepath.Abs` is an external operation on
the process working directory and is not modelled; paths are kept as
given.) -/
def loadConfigs (readFile : String → Except String (List Char)) :
    List String → Except String (List (String × List (List Char)))
  | [] => .ok []
  | f :: rest =>
    match readFile f with
    | .error e => .error ("unable to open file " ++ f ++ ": " ++ e)
    | .ok data =>
      match loadConfigs readFile rest with
      | .error e => .error e
      | .ok acc => .ok ((f, splitCfg data) :: acc)

/-! ## Predicate Classifier (part_000 lines 20-23 and 115-128)

The two module-level patterns are
`failQ = regexp.MustCompile("deny_?[a-zA-Z]*")` and
`warnQ = regexp.MustCompile("warn_?[a-zA-Z]*")`, and `processFile` tests
each rule head name with `MatchString`.  Go `MatchString` reports whether
the string CONTAINS any match of the (unanchored) pattern.  `regexLang`
is the language of one pattern (`stem` then an optional underscore then
ASCII letters) and `reMatch` is the unanchored search. -/

/-- `[a-zA-Z]` character class. -/
def isLetterAZ (c : Char) : Bool :=
  (decide ('a' ≤ c) && decide (c ≤ 'z')) || (decide ('A' ≤ c) && decide (c ≤ 'Z'))

/-- Does `s` match `_?[a-zA-Z]*` exactly? -/
def suffixOk : List Char → Bool
  | '_' :: r => r.all isLetterAZ
  | r => r.all isLetterAZ

/-- Membership of `w` in the language of `<stem>_?[a-zA-Z]*`. -/
def regexLang (stem w : List Char) : Bool :=
  stem.isPrefixOf w && suffixOk (w.drop stem.length)

/-- Does a match of `lang` start at the head of `t`?  (Some prefix of `t`
is in the language.) -/
def matchHere (lang : List Char → Bool) (t : List Char) : Bool :=
  t.inits.any lang

/-- Go `Regexp.MatchString`: does any substring of `s` (a match starting
at any position) belong to the language? -/
def reMatch (lang : List Char → Bool) : List Char → Bool
  | [] => lang []
  | c :: r => matchHere lang (c :: r) || reMatch lang r

/-- The stem of the denial pattern. -/
def denyL : List Char := ['d', 'e', 'n', 'y']

/-- The stem of the warning pattern. -/
def warnL : List Char := ['w', 'a', 'r', 'n']

/-- `failQ.MatchString` (part_000 line 20). -/
def failQ (n : String) : Bool := reMatch (regexLang denyL) n.data

/-- `warnQ.MatchString` (part_000 line 21). -/
def warnQ (n : String) : Bool := reMatch (regexLang warnL) n.data

/-- All top-level rule head names of the given modules, in module
enumeration order then rule source order (the double loop of
`processFile` lines 117-127). -/
def ruleNames (ms : List Module) : List String :=
  (ms.map (fun m => m.rules.map Rule.name)).flatten

/-- The classifier loop of `processFile` (lines 115-128): walk every rule
name and append it to `fQueries` when `failQ` matches and to `wQueries`
when `warnQ` matches.  Returns `(fQueries, wQueries)`.  The Go code
iterates `compiler.Modules`, a map, so `ms` is the module list in one map
iteration order. -/
def classify (ms : List Module) : List String × List String :=
  ((ruleNames ms).filter failQ, (ruleNames ms).filter warnQ)

/-! ### Lemmas about the document splitter and the naming patterns -/

/-- `bytes.Split` never returns an empty list of parts. -/
lemma splitCfg_ne_nil (s : List Char) : splitCfg s ≠ [] := by
  rw [splitCfg.eq_def]
  split
  · simp
  · simp
  · split <;> simp

/-- A file that nowhere contains the 5-byte separator is kept whole: the
split yields exactly the one original segment. -/
lemma splitCfg_no_sep : ∀ s : List Char, containsSeq sepB s = false → splitCfg s = [s] := by
  intro s
  induction s with
  | nil => intro _; rfl
  | cons c rest ih =>
    intro h
    have hp : sepB.isPrefixOf (c :: rest) = false := by
      cases hq : sepB.isPrefixOf (c :: rest) with
      | false => rfl
      | true => rw [containsSeq, hq] at h; simp at h
    have hr : containsSeq sepB rest = false := by
      cases hq : containsSeq sepB rest with
      | false => rfl
      | true => rw [containsSeq, hq] at h; simp at h
    rw [splitCfg.eq_def]
    split
    · simp_all
    · rename_i rest2 heq
      injection heq with h1 h2
      subst h1
      subst h2
      simp [sepB, List.isPrefixOf] at hp
    · rename_i x c2 rest2 hno heq
      injection heq with h1 h2
      subst h1
      subst h2
      rw [ih hr]

lemma isPrefixOf_nil_eq (l : List Char) : l.isPrefixOf [] = l.isEmpty := by
  cases l <;> rfl

/-- A match of `<stem>_?[a-zA-Z]*` starts at the head of `t` exactly when
`stem` itself is a prefix of `t` (the optional suffix may be empty). -/
lemma matchHere_regexLang (stem t : List Char) :
    matchHere (regexLang stem) t = stem.isPrefixOf t := by
  apply Bool.eq_iff_iff.mpr
  unfold matchHere
  constructor
  · intro h
    obtain ⟨w, hw, hmatch⟩ := List.any_eq_true.mp h
    have hmatch2 : stem <+: w ∧ suffixOk (w.drop stem.length) = true := by
      unfold regexLang at hmatch
      simpa using hmatch
    have h3 : w <+: t := (List.mem_inits w t).mp hw
    exact List.isPrefixOf_iff_prefix.mpr (hmatch2.1.trans h3)
  · intro h
    apply List.any_eq_true.mpr
    refine ⟨stem, ?_, ?_⟩
    · exact (List.mem_inits stem t).mpr ( List.isPrefixOf_iff_prefix.mp h)
    · show regexLang stem stem = true
      unfold regexLang
      rw [@List.drop_length Char stem]
      have hrefl : stem.isPrefixOf stem = true := by
        apply List.isPrefixOf_iff_prefix.mpr
        exact List.prefix_refl stem
      rw [hrefl]
      rfl

/-- The unanchored `MatchString` search for `<stem>_?[a-zA-Z]*` succeeds
exactly when the string contains `stem` as a contiguous subsequence: the
optional-suffix part of the pattern never constrains matching. -/
lemma reMatch_eq_containsSeq (stem : List Char) :
    ∀ s : List Char, reMatch (regexLang stem) s = containsSeq stem s := by
  intro s
  induction s with
  | nil =>
    show (stem.isPrefixOf [] && suffixOk ([].drop stem.length)) = stem.isEmpty
    rw [List.drop_nil, isPrefixOf_nil_eq]
    show (stem.isEmpty && true) = stem.isEmpty
    exact Bool.and_true _
  | cons c r ih =>
    rw [reMatch, containsSeq, matchHere_regexLang, ih]

/-! ## Decoder selection: `pkg/parsers/parsers.go`

`Get` selects a decoder by `filepath.Ext(fileName)`; `.yaml`, `.yml` and
`.json` all yield `parseYAML`, anything else yields the
`unable to find Parser for file` error.  The YAML unmarshaller itself
(`ghodss/yaml`) is external and is a parameter `u`. -/

/-- The external `yaml.Unmarshal`: bytes to a generic decoded value, or a
decode error. -/
abbrev Unmarshal := List Char → Except String GoValue

/-- The `Parser` function type of `pkg/parsers`. -/
abbrev Parser := List Char → Except String GoValue

/-- Scan a reversed path: collect characters until the final dot of the
final path element, stopping empty at a path separator.  Helper for
`filepathExt`. -/
def extAux : List Char → List Char → List Char
  | [], _ => []
  | c :: rest, acc =>
    if c = '/' then []
    else if c = '.' then '.' :: acc
    else extAux rest (c :: acc)

/-- Go `filepath.Ext`: the suffix beginning at the final dot in the final
slash-separated element of the path; empty if there is no dot. -/
def filepathExt (s : String) : String :=
  String.mk (extAux s.data.reverse [])

/-- `parseYAML` (parsers.go lines 28-35): run the external unmarshaller
and wrap its failure in an `unable to parse yaml` error. -/
def parseYAML (u : Unmarshal) (bs : List Char) : Except String GoValue :=
  match u bs with
  | .error e => .error ("unable to parse yaml: " ++ e)
  | .ok v => .ok v

/-- `parsers.Get` (parsers.go lines 15-26): switch on the extension; the
three recognized extensions share the single YAML decoder. -/
def parsersGet (u : Unmarshal) (fileName : String) : Except String Parser :=
  let suffix := filepathExt fileName
  if suffix = ".yaml" ∨ suffix = ".yml" ∨ suffix = ".json" then .ok (parseYAML u)
  else .error ("unable to find Parser for file: " ++ fileName)

/-! ## Query Dispatcher: `runQuery` (part_000 lines 154-190)

`runQuery` builds the rego query (`Query.Build` at lines 193-205 always
returns a nil error, so that failure path is dead), prepares and
evaluates it through the external engine, and then extracts message
strings from the result set.  The engine is a parameter returning either
a prepare error, an evaluation error, or a result set; a result set is a
list of results, each carrying the list of its expression values. -/

/-- What the external rego engine does with one prepared query on one
input document. -/
inductive EngineOutcome where
  | prepareErr : String → EngineOutcome
  | evalErr : String → EngineOutcome
  | results : List (List GoValue) → EngineOutcome

/-- The external policy engine: query string and bound input to outcome. -/
abbrev Engine := String → GoValue → EngineOutcome

/-- `multierr.Append` on our error model: appending a message to the nil
error creates a fresh error; otherwise the message list grows. -/
def multierrAppend : Option (List String) → String → Option (List String)
  | none, m => some [m]
  | some ms2, m => some (ms2 ++ [m])

/-- The `hasResults` closure of `runQuery`: the value is a (decoded) list
with at least one element. -/
def hasResults : GoValue → Bool
  | .list xs => decide (0 < xs.length)
  | _ => false

/-- The elements of a value known to be a list (the
`value.([]interface{})` view). -/
def valueElems : GoValue → List GoValue
  | .list xs => xs
  | _ => []

/-- The inner loop `for _, v := range value.([]interface{})`: each element
is force-cast with `v.(string)`; a non-string element makes that type
assertion panic (`Except.error ()`). -/
def extractElems : Option (List String) → List GoValue → Except Unit (Option (List String))
  | errAcc, [] => .ok errAcc
  | errAcc, v :: vs =>
    match v with
    | .str s => extractElems (multierrAppend errAcc s) vs
    | _ => .error ()

/-- The loop `for _, e := range r.Expressions`: skip values without
results, extract from the rest. -/
def extractExprs : Option (List String) → List GoValue → Except Unit (Option (List String))
  | errAcc, [] => .ok errAcc
  | errAcc, value :: rest =>
    if hasResults value then
      match extractElems errAcc (valueElems value) with
      | .error u2 => .error u2
      | .ok e2 => extractExprs e2 rest
    else extractExprs errAcc rest

/-- The loop `for _, r := range rr` over the result set. -/
def extractResults : Option (List String) → List (List GoValue) → Except Unit (Option (List String))
  | errAcc, [] => .ok errAcc
  | errAcc, exprs :: rest =>
    match extractExprs errAcc exprs with
    | .error u2 => .error u2
    | .ok e2 => extractResults e2 rest

/-- `runQuery` (part_000 lines 154-190).  Engine failures come back as a
returned (wrapped) error value; the message-extraction loop starts from
the nil error left by a successful `Eval` and can panic on a non-string
element. -/
def runQuery (e : Engine) (q : String) (input : GoValue) : Except Unit (Option (List String)) :=
  match e q input with
  | .prepareErr m => .ok (some ["error preparing for evaluation: " ++ m])
  | .evalErr m => .ok (some ["error evaluating rules: " ++ m])
  | .results rs => extractResults none rs

/-- The fully qualified query string `data.<namespace>.<rule-name>` built
by `processFile`. -/
def mkQuery (ns q : String) : String := "data." ++ ns ++ "." ++ q

/-- One `for _, fq := range fQueries`-style loop of `processFile`: run
every classified query against one input part, collecting the returned
error values in order (a panic propagates). -/
def runQueries (e : Engine) (ns : String) (input : GoValue) :
    List String → Except Unit (List (Option (List String)))
  | [] => .ok []
  | q :: qs =>
    match runQuery e (mkQuery ns q) input with
    | .error u2 => .error u2
    | .ok r =>
      match runQueries e ns input qs with
      | .error u2 => .error u2
      | .ok rs => .ok (r :: rs)

/-! ## `processFile` (part_000 lines 109-152) and `Run` (lines 66-82) -/

/-- `CheckResult` (part_000 lines 44-48): the per-file lists of failure
and warning error values exactly as appended by `processFile` — note
these are Go `error` values, so a nil (`none`) entry is possible. -/
structure CheckResult where
  failures : List (Option (List String))
  warnings : List (Option (List String))
deriving DecidableEq

/-- The per-part loop of `processFile` (lines 130-148): decode the part
(a decode failure returns that error), then run all denial queries and
all warning queries, appending each returned error value unconditionally.
The extra `calls` component records the query string of every policy
evaluation call that was dispatched, in order. -/
def processParts (e : Engine) (p : Parser) (ns : String) (fQ wQ : List String) :
    List (List Char) → List (Option (List String)) → List (Option (List String)) →
    List String →
    Outcome (List (Option (List String)) × List (Option (List String)) × List String)
  | [], fails, warns, calls => .ok (fails, warns, calls)
  | part :: rest, fails, warns, calls =>
    match p part with
    | .error e2 => .err e2
    | .ok input =>
      match runQueries e ns input fQ with
      | .error _ => .panicked
      | .ok fs =>
        match runQueries e ns input wQ with
        | .error _ => .panicked
        | .ok ws =>
          processParts e p ns fQ wQ rest (fails ++ fs) (warns ++ ws)
            (calls ++ (fQ ++ wQ).map (mkQuery ns))

/-- `processFile` (part_000 lines 109-152): select the decoder from the
file name, classify the rule names, then evaluate every classified query
against every document part. -/
def processFile (e : Engine) (u : Unmarshal) (ns fileName : String)
    (parts : List (List Char)) (ms : List Module) :
    Outcome (List (Option (List String)) × List (Option (List String)) × List String) :=
  match parsersGet u fileName with
  | .error e2 => .err e2
  | .ok p => processParts e p ns (classify ms).1 (classify ms).2 parts [] [] []

/-- The file loop of `Run` (lines 68-79): process files in order; the
first file whose `processFile` returns an error aborts the whole batch
with `error processiong file: ...` (the typo is the source's) and an
empty `CheckResults`. -/
def runLoop (e : Engine) (u : Unmarshal) (ns : String) (ms : List Module) :
    List (String × List (List Char)) → List (String × CheckResult) →
    Outcome (List (String × CheckResult))
  | [], acc => .ok acc
  | (name, parts) :: rest, acc =>
    match processFile e u ns name parts ms with
    | .panicked => .panicked
    | .err e2 => .err ("error processiong file: " ++ e2)
    | .ok (fs, ws, _) => runLoop e u ns ms rest (acc ++ [(name, CheckResult.mk fs ws)])

/-- `Run` (part_000 lines 52-82) after its `compiler.Build` and
`loadConfigs` stages: evaluate every loaded file against the compiled
modules.  `cfs` is the `loadConfigs` output in one map iteration order;
in Go an `.err` outcome is returned together with an empty
`CheckResults{}` map. -/
def Run (e : Engine) (u : Unmarshal) (ns : String) (ms : List Module)
    (cfs : List (String × List (List Char))) : Outcome (List (String × CheckResult)) :=
  runLoop e u ns ms cfs []

/-! ## Reporter: `confCheck` and `main` (part_002) -/

/-- One line printed by the `printer` (part_002 lines 113-123). -/
inductive OutLine where
  | passed : String → OutLine
  | warningLine : String → Option (List String) → OutLine
  | failureLine : String → Option (List String) → OutLine
deriving DecidableEq

/-- The per-file body of the `confCheck` report loop (part_002 lines
73-92): a `Passed` line when both lists are empty, then every warning (as
a failure line in strict mode), then every failure. -/
def confCheckFile (strict : Bool) (f : String) (res : CheckResult) : List OutLine :=
  (if res.warnings.length = 0 ∧ res.failures.length = 0 then [OutLine.passed f] else []) ++
  res.warnings.map (fun w => if strict then OutLine.failureLine f w else OutLine.warningLine f w) ++
  res.failures.map (fun fa => OutLine.failureLine f fa)

/-- `confCheck` (part_002 lines 61-95) after a successful `Run`: print
the report and return the function's error value.  The failures loop
assigns `err = fa` ("trap an error just so we exit with the right code"),
but the function then unconditionally executes `return nil`, so the
returned error is always `none`. -/
def confCheck (strict : Bool) (cr : List (String × CheckResult)) : List OutLine × Option String :=
  ((cr.map (fun fr => confCheckFile strict fr.1 fr.2)).flatten, none)

/-- The exit decision of `main` (part_002 lines 43-51): the process exits
non-zero exactly when `confCheck` returns a non-nil error
(`log.Fatal(cli.NewExitError(...))`). -/
def exitNonZero (strict : Bool) (cr : List (String × CheckResult)) : Bool :=
  ((confCheck strict cr).2).isSome

/-- The message strings carried by one Go error value. -/
def errMsgs : Option (List String) → List String
  | none => []
  | some ms2 => ms2

/-- Total number of failure message strings across all files of a report. -/
def failureMessageCount (cr : List (String × CheckResult)) : Nat :=
  (cr.map (fun fr => ((fr.2.failures).map errMsgs).flatten.length)).sum

/-- Total number of warning message strings across all files of a report. -/
def warningMessageCount (cr : List (String × CheckResult)) : Nat :=
  (cr.map (fun fr => ((fr.2.warnings).map errMsgs).flatten.length)).sum

/-! ## Rule Catalog Builder: `readPolicies` and `Build` (part_000 lines 207-283)

`readPolicies` stats the policy path; for a directory it lists the
directory, for a plain file it uses that single entry (whose `Name()` is
the path's base name) with `filepath.Dir` as the directory.  Every
considered entry is filtered by the `.rego` suffix, read, and parsed by
the external `ast.ParseModule`.  `Build` then hands all modules to the
external compiler in one batch; the compiler is outside this repository
and is not modelled. -/

/-- The file-system operations used by `readPolicies`: `os.Stat` (is the
path a directory?), `ioutil.ReadDir` (entry base names) and
`ioutil.ReadFile`. -/
structure FS where
  stat : String → Except String Bool
  readDir : String → Except String (List String)
  readFile : String → Except String String

/-- Go `strings.HasSuffix`. -/
def hasSuffixB (s pat : String) : Bool := pat.data.isSuffixOf s.data

/-- The base name after the last slash (`os.FileInfo.Name()` of the
statted path). -/
def filepathBase (s : String) : String :=
  String.mk (s.data.reverse.takeWhile (fun c => c ≠ '/')).reverse

/-- Go `filepath.Dir` restricted to the shapes `readPolicies` feeds it:
everything before the last slash (the `Clean` normalization of pathless
names to `.` is immaterial here because the resulting path is only handed
to the abstract file system). -/
def filepathDir (s : String) : String :=
  String.mk (((s.data.reverse.dropWhile (fun c => c ≠ '/')).drop 1).reverse)

/-- The loop body for one candidate entry (part_000 lines 243-259): skip
names without the `.rego` suffix, read and parse the rest, extending the
module map (modelled as an association list in insertion order). -/
def readPolicyFile (fs : FS) (parse : String → String → Except String Module)
    (dirPath : String) (ms : List (String × Module)) (name : String) :
    Except String (List (String × Module)) :=
  if hasSuffixB name ".rego" = false then .ok ms
  else
    match fs.readFile (dirPath ++ "/" ++ name) with
    | .error e => .error e
    | .ok out =>
      match parse name out with
      | .error e => .error e
      | .ok parsed => .ok (ms ++ [(name, parsed)])

/-- The `for _, file := range files` loop of `readPolicies`. -/
def readPolicyFiles (fs : FS) (parse : String → String → Except String Module)
    (dirPath : String) : List String → List (String × Module) →
    Except String (List (String × Module))
  | [], ms => .ok ms
  | name :: rest, ms =>
    match readPolicyFile fs parse dirPath ms name with
    | .error e => .error e
    | .ok ms2 => readPolicyFiles fs parse dirPath rest ms2

/-- `readPolicies` (part_000 lines 222-263). -/
def readPolicies (fs : FS) (parse : String → String → Except String Module)
    (pPath : String) : Except String (List (String × Module)) :=
  match fs.stat pPath with
  | .error e => .error ("error loading policies from " ++ pPath ++ ": " ++ e)
  | .ok isDir =>
    if isDir then
      match fs.readDir pPath with
      | .error e => .error ("error loading policies from " ++ pPath ++ ": " ++ e)
      | .ok names => readPolicyFiles fs parse pPath names []
    else
      readPolicyFiles fs parse (filepathDir pPath) [filepathBase pPath] []

/-! ### Lemmas about the dispatcher loops -/

/-- Each classified query produces exactly one appended error value. -/
lemma runQueries_ok_length (e : Engine) (ns : String) (input : GoValue) :
    ∀ (qs : List String) (rs : List (Option (List String))),
      runQueries e ns input qs = .ok rs → rs.length = qs.length := by
  intro qs
  induction qs with
  | nil =>
    intro rs h
    simp only [runQueries] at h
    cases h
    rfl
  | cons q qs ih =>
    intro rs h
    simp only [runQueries] at h
    cases hq : runQuery e (mkQuery ns q) input with
    | error u2 => simp only [hq] at h; cases h
    | ok r =>
      simp only [hq] at h
      cases hrec : runQueries e ns input qs with
      | error u2 => simp only [hrec] at h; cases h
      | ok rs2 =>
        simp only [hrec] at h
        cases h
        simp [ih rs2 hrec]

/-- Counting what a successful `processParts` run appended: one failure
entry per (part, denial query), one warning entry per (part, warning
query), and one evaluation call per (part, classified query). -/
lemma processParts_ok_len (e : Engine) (p : Parser) (ns : String) (fQ wQ : List String) :
    ∀ (parts : List (List Char)) fails warns calls F W C,
      processParts e p ns fQ wQ parts fails warns calls = .ok (F, W, C) →
      F.length = fails.length + parts.length * fQ.length ∧
      W.length = warns.length + parts.length * wQ.length ∧
      C.length = calls.length + parts.length * (fQ.length + wQ.length) := by
  intro parts
  induction parts with
  | nil =>
    intro fails warns calls F W C h
    simp only [processParts] at h
    cases h
    simp
  | cons part rest ih =>
    intro fails warns calls F W C h
    simp only [processParts] at h
    cases hp : p part with
    | error e2 => simp only [hp] at h; cases h
    | ok input =>
      simp only [hp] at h
      cases hf : runQueries e ns input fQ with
      | error u2 => simp only [hf] at h; cases h
      | ok fs =>
        simp only [hf] at h
        cases hw : runQueries e ns input wQ with
        | error u2 => simp only [hw] at h; cases h
        | ok ws =>
          simp only [hw] at h
          obtain ⟨ih1, ih2, ih3⟩ := ih _ _ _ _ _ _ h
          have hfs := runQueries_ok_length e ns input fQ fs hf
          have hws := runQueries_ok_length e ns input wQ ws hw
          refine ⟨?_, ?_, ?_⟩
          · rw [ih1]
            simp [hfs, Nat.succ_mul]
            ring
          · rw [ih2]
            simp [hws, Nat.succ_mul]
            ring
          · rw [ih3]
            simp [Nat.succ_mul]
            ring

/-- Every evaluation call dispatched by a successful `processParts` run
queries one of the classified names (or was already in the accumulator). -/
lemma processParts_ok_calls (e : Engine) (p : Parser) (ns : String) (fQ wQ : List String) :
    ∀ (parts : List (List Char)) fails warns calls F W C,
      processParts e p ns fQ wQ parts fails warns calls = .ok (F, W, C) →
      ∀ q ∈ C, q ∈ calls ∨ ∃ nm, (nm ∈ fQ ∨ nm ∈ wQ) ∧ q = mkQuery ns nm := by
  intro parts
  induction parts with
  | nil =>
    intro fails warns calls F W C h q hq
    simp only [processParts] at h
    cases h
    exact Or.inl hq
  | cons part rest ih =>
    intro fails warns calls F W C h q hq
    simp only [processParts] at h
    cases hp : p part with
    | error e2 => simp only [hp] at h; cases h
    | ok input =>
      simp only [hp] at h
      cases hf : runQueries e ns input fQ with
      | error u2 => simp only [hf] at h; cases h
      | ok fs =>
        simp only [hf] at h
        cases hw : runQueries e ns input wQ with
        | error u2 => simp only [hw] at h; cases h
        | ok ws =>
          simp only [hw] at h
          rcases ih _ _ _ _ _ _ h q hq with hin | hex
          · rcases List.mem_append.mp hin with hc | hnew
            · exact Or.inl hc
            · right
              obtain ⟨nm, hnm, hqe⟩ := List.mem_map.mp hnew
              exact ⟨nm, List.mem_append.mp hnm, hqe.symm⟩
          · exact Or.inr hex

/-! ### Lemmas about `filepath.Ext` -/

lemma string_data_append (a b : String) : (a ++ b).data = a.data ++ b.data := by
  cases a
  cases b
  rfl

/-- The characters collected by `extAux` form a suffix of the scanned
path (readback of the reverse scan). -/
lemma extAux_suffix : ∀ (r acc s : List Char), r.reverse ++ acc = s → extAux r acc <:+ s := by
  intro r
  induction r with
  | nil =>
    intro acc s hs
    refine ⟨s, by simp [extAux]⟩
  | cons c rest ih =>
    intro acc s hs
    rw [extAux]
    by_cases hsl : c = '/'
    · simp [hsl]
    · simp only [hsl, if_false]
      by_cases hdot : c = '.'
      · simp only [hdot, if_true]
        refine ⟨rest.reverse, ?_⟩
        rw [← hs, hdot]
        simp
      · simp only [hdot, if_false]
        apply ih (c :: acc)
        rw [← hs]
        simp

/-- `filepath.Ext fileName` is a suffix of `fileName` itself. -/
lemma filepathExt_suffix (fileName : String) : (filepathExt fileName).data <:+ fileName.data := by
  have h := extAux_suffix fileName.data.reverse [] fileName.data (by simp)
  exact h

/-! ### Concrete fixtures used by the claim instances -/

/-- An engine for which every query evaluates to an empty result list:
the normal "no violation" outcome. -/
def engineEmpty : Engine := fun _ _ => EngineOutcome.results [[GoValue.list []]]

/-- An engine whose result list contains a non-string element. -/
def engineBadValue : Engine := fun _ _ =>
  EngineOutcome.results [[GoValue.list [GoValue.str "a", GoValue.num 1]]]

/-- A decoder that accepts every document. -/
def unmarshalOk : Unmarshal := fun _ => .ok GoValue.nullV

/-- A decoder that rejects exactly the one-byte document `b`. -/
def unmarshalBadB : Unmarshal := fun bs =>
  if bs = ['b'] then .error "bad" else .ok GoValue.nullV

/-- A one-module policy set whose single rule is named `deny`. -/
def msDeny : List Module := [Module.mk [Rule.mk "deny"]]

/-- A one-module policy set with one denial rule and one warning rule. -/
def msDenyWarn : List Module := [Module.mk [Rule.mk "deny", Rule.mk "warn"]]

/-- A one-module policy set whose single rule is named `nodeny`. -/
def msNodeny : List Module := [Module.mk [Rule.mk "nodeny"]]

/-! ## Claim instances -/

/-- C1: the claim says a file whose parts produce zero violation messages
gets an empty `Failures` and empty `Warnings` sequence.  The code instead
appends the nil error returned by every clean `runQuery` call
unconditionally (`fails = append(fails, fs)`), so with one denial rule,
one part and zero violation messages the recorded `CheckResult` has a
`Failures` list of length 1 (holding a nil error) — not an empty one.
This also makes the reporter's `Passed` branch unreachable whenever any
rule exists, contradicting the documented output. -/
theorem c1_clean_pass_records_nil_failure :
    Run engineEmpty unmarshalOk "main" msDeny [("cfg.yaml", [['a']])] =
      .ok [("cfg.yaml", CheckResult.mk [none] [])] ∧
    failureMessageCount [("cfg.yaml", CheckResult.mk [none] [])] = 0 ∧
    (CheckResult.mk [none] ([] : List (Option (List String)))).failures.length = 1 := by
  refine ⟨rfl, by decide, by decide⟩

/-- A report with one genuine failure message. -/
def crFailOne : List (String × CheckResult) := [("f.yaml", CheckResult.mk [some ["boom"]] [])]

/-- A report with one genuine warning message. -/
def crWarnOne : List (String × CheckResult) := [("f.yaml", CheckResult.mk [] [some ["w"]])]

/-- C2: the claim says the exit status is non-zero when a failure message
occurred (or, in strict mode, a warning message).  After a successful
`Run`, `confCheck` assigns `err = fa` in the failures loop but then
unconditionally executes `return nil`, so the process exits zero even
with failure messages present, and strict mode changes only the printed
line, not the exit status. -/
theorem c2_exit_zero_despite_failures :
    0 < failureMessageCount crFailOne ∧ exitNonZero false crFailOne = false ∧
    0 < warningMessageCount crWarnOne ∧ exitNonZero true crWarnOne = false := by
  refine ⟨by decide, rfl, by decide, rfl⟩

/-- C7: the claim says a non-string element in an evaluation result is
reported as an evaluation error value and never crashes the process.  The
extraction loop runs the unchecked type assertion `v.(string)`, which
panics on the non-string element (`Except.error ()` models the Go
panic), instead of returning an error value. -/
theorem c7_nonstring_element_panics :
    runQuery engineBadValue "data.main.deny" GoValue.nullV = .error () := rfl

/-- C3 counterexample: two files, the first with a decode failure, the
second decodable and evaluable on its own (as the second conjunct
shows).  `Run` aborts the entire batch with an error and an empty
`CheckResults`; the second file is neither evaluated nor present in any
returned `CheckResults`, contradicting the claim that only the failing
file is aborted. -/
theorem c3_counterexample :
    Run engineEmpty unmarshalBadB "main" msDeny [("a.yaml", [['b']]), ("c.yaml", [['a']])] =
      .err ("error processiong file: unable to parse yaml: bad") ∧
    processFile engineEmpty unmarshalBadB "main" "c.yaml" [['a']] msDeny =
      .ok ([none], [], ["data.main.deny"]) :=
  ⟨rfl, rfl⟩

/-- C3 (amended): a decode (parse) failure in one segment of one file
aborts the entire invocation: the run loop returns the wrapped parse
error (in Go together with an empty `CheckResults{}`), and the remaining
files of the batch are not evaluated and appear in no returned
`CheckResults`. -/
theorem c3_decode_failure_aborts_whole_run (e : Engine) (u : Unmarshal) (ns : String)
    (ms : List Module) (name : String) (parts : List (List Char))
    (rest : List (String × List (List Char))) (acc : List (String × CheckResult)) (msg : String)
    (h : processFile e u ns name parts ms = .err msg) :
    runLoop e u ns ms ((name, parts) :: rest) acc = .err ("error processiong file: " ++ msg) := by
  simp only [runLoop, h]

/-- Witness for the amended C3 at a concrete failing batch. -/
theorem c3_decode_failure_aborts_whole_run_witness :
    runLoop engineEmpty unmarshalBadB "main" msDeny
      [("a.yaml", [['b']]), ("c.yaml", [['a']])] [] =
      .err ("error processiong file: " ++ "unable to parse yaml: bad") :=
  c3_decode_failure_aborts_whole_run engineEmpty unmarshalBadB "main" msDeny
    "a.yaml" [['b']] [("c.yaml", [['a']])] [] "unable to parse yaml: bad" rfl

/-- Modelled from the claim wording of C4 (for the counterexample only):
a name that BEGINS with `deny` optionally followed by an underscore and
word characters — an anchored match, which (the suffix being optional)
holds exactly when `deny` is a prefix of the name. -/
def specBeginsDeny (n : String) : Bool := denyL.isPrefixOf n.data

/-- C4 counterexample: the rule name `nodeny` does not begin with `deny`,
yet the classifier places it in the denial sequence, because
`MatchString` with the unanchored pattern `deny_?[a-zA-Z]*` searches for
the stem anywhere in the name.  This refutes the "only if the name begins
with deny" direction of the claim. -/
theorem c4_counterexample :
    (classify msNodeny).1 = ["nodeny"] ∧ specBeginsDeny "nodeny" = false :=
  ⟨rfl, rfl⟩

/-- C4 (amended): the classifier places a rule name in the denial
sequence iff the name CONTAINS `deny` as a contiguous substring, and in
the warning sequence iff it contains `warn` (the optional
underscore-plus-letters suffix of the patterns never constrains
matching); and every policy-evaluation call dispatched for a file queries
one of the classified names, so a name matching neither pattern is never
evaluated as a policy check. -/
theorem c4_amended_classification_by_containment (ms : List Module) (n : String)
    (e : Engine) (u : Unmarshal) (ns fn : String) (parts : List (List Char))
    (F W : List (Option (List String))) (C : List String)
    (hpf : processFile e u ns fn parts ms = .ok (F, W, C)) :
    (n ∈ (classify ms).1 ↔ n ∈ ruleNames ms ∧ containsSeq denyL n.data = true) ∧
    (n ∈ (classify ms).2 ↔ n ∈ ruleNames ms ∧ containsSeq warnL n.data = true) ∧
    (∀ q ∈ C, ∃ nm, (nm ∈ (classify ms).1 ∨ nm ∈ (classify ms).2) ∧ q = mkQuery ns nm) := by
  refine ⟨?_, ?_, ?_⟩
  · have h1 : (classify ms).1 = (ruleNames ms).filter failQ := rfl
    rw [h1, List.mem_filter]
    unfold failQ
    rw [reMatch_eq_containsSeq]
  · have h1 : (classify ms).2 = (ruleNames ms).filter warnQ := rfl
    rw [h1, List.mem_filter]
    unfold warnQ
    rw [reMatch_eq_containsSeq]
  · intro q hq
    cases hg : parsersGet u fn with
    | error e2 => simp only [processFile, hg] at hpf; cases hpf
    | ok p =>
      simp only [processFile, hg] at hpf
      rcases processParts_ok_calls e p ns (classify ms).1 (classify ms).2 parts
          [] [] [] F W C hpf q hq with hin | ⟨nm, hnm, hqe⟩
      · simp at hin
      · exact ⟨nm, hnm, hqe⟩

/-- Witness for the amended C4: the containment characterization at the
concrete rule-set whose single rule is `nodeny`, discharged through a
concrete successful `processFile` run. -/
theorem c4_amended_witness :
    "nodeny" ∈ (classify msNodeny).1 ↔
      "nodeny" ∈ ruleNames msNodeny ∧ containsSeq denyL "nodeny".data = true :=
  (c4_amended_classification_by_containment msNodeny "nodeny" engineEmpty unmarshalOk
    "main" "cfg.yaml" [['a']] [none] [] ["data.main.nodeny"] rfl).1

/-- Two modules with distinct denial rule names, under two different map
iteration orders of the same `compiler.Modules` map. -/
def modsA : List (String × Module) :=
  [("a.rego", Module.mk [Rule.mk "deny_x"]), ("b.rego", Module.mk [Rule.mk "deny_y"])]

/-- The same association list (map) as `modsA` in the other order. -/
def modsB : List (String × Module) :=
  [("b.rego", Module.mk [Rule.mk "deny_y"]), ("a.rego", Module.mk [Rule.mk "deny_x"])]

/-- C5 counterexample: `modsA` and `modsB` are the same `Modules` map (a
permutation of each other), i.e. the same compiled rule-set, but the two
enumeration orders — both legitimate iteration orders of a Go map, whose
range order is unspecified and deliberately randomized — produce
different ordered denial-name sequences.  So two runs of the classifier
over one fixed compiled rule-set need not produce identical ordered
sequences. -/
theorem c5_counterexample :
    modsA.Perm modsB ∧ classify (modsA.map Prod.snd) ≠ classify (modsB.map Prod.snd) := by
  constructor
  · decide
  · decide

/-- C5 (amended): for one fixed enumeration order of the compiled
modules, classification is deterministic (a pure function of the
enumeration) and order-preserving: each output sequence is an
order-preserving subsequence of the enumerated rule names.  Only the
module enumeration order itself — a Go map iteration order — is not
fixed across runs. -/
theorem c5_amended_deterministic_for_fixed_enumeration (ms : List Module) :
    classify ms = classify ms ∧
    ((classify ms).1).Sublist (ruleNames ms) ∧ ((classify ms).2).Sublist (ruleNames ms) :=
  ⟨rfl, List.filter_sublist _, List.filter_sublist _⟩

/-- A file system whose policy path stats as a plain file with readable
content. -/
def fsPlainFile : FS where
  stat := fun _ => .ok false
  readDir := fun _ => .ok []
  readFile := fun _ => .ok "package main"

/-- An external module parser that always returns the given module. -/
def parseConst (m : Module) : String → String → Except String Module := fun _ _ => .ok m

/-- The one-rule module used in the catalog-builder instances. -/
def modDeny : Module := Module.mk [Rule.mk "deny"]

/-- C6 counterexample: `pol.txt` is a plain file (not a directory), yet
`readPolicies` returns an empty module map without parsing it — the
`.rego` suffix filter (`// only consider rego files`) applies to the
single-file case as well, so the file is NOT compiled "regardless of its
name suffix" as the claim states. -/
theorem c6_counterexample :
    fsPlainFile.stat "pol.txt" = .ok false ∧
    hasSuffixB (filepathBase "pol.txt") ".rego" = false ∧
    readPolicies fsPlainFile (parseConst modDeny) "pol.txt" = .ok [] := by
  refine ⟨rfl, by decide, rfl⟩

/-- C6 (amended): when the policy source path refers to a single file,
the builder still filters by the `.rego` suffix: a single file without
the suffix is skipped, producing an empty module set, while a single
`.rego` file is parsed alone. -/
theorem c6_single_file_also_suffix_filtered (fs : FS)
    (parse : String → String → Except String Module) (pPath : String)
    (hstat : fs.stat pPath = .ok false) :
    (hasSuffixB (filepathBase pPath) ".rego" = false →
      readPolicies fs parse pPath = .ok []) ∧
    (∀ content m, hasSuffixB (filepathBase pPath) ".rego" = true →
      fs.readFile (filepathDir pPath ++ "/" ++ filepathBase pPath) = .ok content →
      parse (filepathBase pPath) content = .ok m →
      readPolicies fs parse pPath = .ok [(filepathBase pPath, m)]) := by
  constructor
  · intro hsuf
    simp only [readPolicies, hstat]
    simp [readPolicyFiles, readPolicyFile, hsuf]
  · intro content m hsuf hread hparse
    simp only [readPolicies, hstat]
    simp [readPolicyFiles, readPolicyFile, hsuf, hread, hparse]

/-- Witness for the amended C6: a single `.rego` file is parsed alone. -/
theorem c6_single_file_witness :
    readPolicies fsPlainFile (parseConst modDeny) "dir/p.rego" = .ok [("p.rego", modDeny)] :=
  (c6_single_file_also_suffix_filtered fsPlainFile (parseConst modDeny) "dir/p.rego" rfl).2
    "package main" modDeny (by decide) rfl rfl

/-- C8: a file split into K parts with N denial-classified and M
warning-classified names dispatches exactly K × (N + M) policy-evaluation
calls (the recorded call trace has that length), and a file without the
separator is split into exactly one part — the whole file as one unit. -/
theorem c8_eval_call_count (e : Engine) (u : Unmarshal) (ns fn : String)
    (parts : List (List Char)) (ms : List Module)
    (F W : List (Option (List String))) (C : List String) (data : List Char)
    (hpf : processFile e u ns fn parts ms = .ok (F, W, C))
    (hdata : containsSeq sepB data = false) :
    C.length = parts.length * (((classify ms).1).length + ((classify ms).2).length) ∧
    splitCfg data = [data] := by
  constructor
  · cases hg : parsersGet u fn with
    | error e2 => simp only [processFile, hg] at hpf; cases hpf
    | ok p =>
      simp only [processFile, hg] at hpf
      have h3 := processParts_ok_len e p ns (classify ms).1 (classify ms).2 parts
        [] [] [] F W C hpf
      simpa using h3.2.2
  · exact splitCfg_no_sep data hdata

/-- Witness for C8: two parts, one denial and one warning rule, four
evaluation calls. -/
theorem c8_eval_call_count_witness :
    (["data.main.deny", "data.main.warn", "data.main.deny", "data.main.warn"] :
        List String).length =
      ([['a'], ['c']] : List (List Char)).length *
        (((classify msDenyWarn).1).length + ((classify msDenyWarn).2).length) ∧
    splitCfg ['x'] = [['x']] :=
  c8_eval_call_count engineEmpty unmarshalOk "main" "cfg.yaml" [['a'], ['c']] msDenyWarn
    [none, none] [none, none]
    ["data.main.deny", "data.main.warn", "data.main.deny", "data.main.warn"] ['x']
    rfl (by decide)

/-- C9: decoder selection for a file whose extension is not `.yaml`,
`.yml` or `.json` fails with an explicit error (no silent skip) whose
message names the file and hence contains its extension; the three
recognized extensions share the single YAML decoder. -/
theorem c9_unsupported_extension_fails (u : Unmarshal) (fileName : String)
    (h : ¬ (filepathExt fileName = ".yaml" ∨ filepathExt fileName = ".yml" ∨
        filepathExt fileName = ".json")) :
    (∃ msg, parsersGet u fileName = .error msg ∧ (filepathExt fileName).data <:+ msg.data) ∧
    (∃ p, parsersGet u "a.yaml" = .ok p ∧ parsersGet u "b.yml" = .ok p ∧
      parsersGet u "c.json" = .ok p) := by
  constructor
  · refine ⟨"unable to find Parser for file: " ++ fileName, ?_, ?_⟩
    · simp [parsersGet, h]
    · rw [string_data_append]
      obtain ⟨t, ht⟩ := filepathExt_suffix fileName
      exact ⟨("unable to find Parser for file: ").data ++ t, by rw [← ht]; simp⟩
  · exact ⟨parseYAML u, rfl, rfl, rfl⟩

/-- Witness for C9 at the concrete unsupported extension `.toml`. -/
theorem c9_unsupported_extension_witness :
    (∃ msg, parsersGet unmarshalOk "cfg.toml" = .error msg ∧
      (filepathExt "cfg.toml").data <:+ msg.data) ∧
    (∃ p, parsersGet unmarshalOk "a.yaml" = .ok p ∧ parsersGet unmarshalOk "b.yml" = .ok p ∧
      parsersGet unmarshalOk "c.json" = .ok p) :=
  c9_unsupported_extension_fails unmarshalOk "cfg.toml" (by decide)

/-- C10: the splitter recognizes only the exact byte sequence
newline-`---`-newline; every file yields at least one part, a file with
no separator occurrence stays one whole part, `---` at the very start
(no preceding newline) or very end (no trailing newline) does not open a
new part, and an interior separator does split. -/
theorem c10_separator_exact (s t : List Char) (h : containsSeq sepB t = false) :
    0 < (splitCfg s).length ∧ splitCfg t = [t] ∧
    splitCfg ['-', '-', '-', '\n', 'b'] = [['-', '-', '-', '\n', 'b']] ∧
    splitCfg ['a', '\n', '-', '-', '-'] = [['a', '\n', '-', '-', '-']] ∧
    splitCfg ['a', '\n', '-', '-', '-', '\n', 'b'] = [['a'], ['b']] := by
  refine ⟨List.length_pos.mpr (splitCfg_ne_nil s), splitCfg_no_sep t h,
    by decide, by decide, by decide⟩

/-- Witness for C10 at concrete inputs. -/
theorem c10_separator_exact_witness :
    0 < (splitCfg ['a', '\n', '-', '-', '-', '\n', 'b']).length ∧ splitCfg ['x'] = [['x']] ∧
    splitCfg ['-', '-', '-', '\n', 'b'] = [['-', '-', '-', '\n', 'b']] ∧
    splitCfg ['a', '\n', '-', '-', '-'] = [['a', '\n', '-', '-', '-']] ∧
    splitCfg ['a', '\n', '-', '-', '-', '\n', 'b'] = [['a'], ['b']] :=
  c10_separator_exact ['a', '\n', '-', '-', '-', '\n', 'b'] ['x'] (by decide)

end CCheck
